import Mathlib

/-!
Verification development for the search-query-to-metric-condition compiler
(`sentry/snuba/metrics/extraction.py` and its external tokenizer
`sentry.api.event_search.parse_search_query`).

The compiler sources are not shipped with this tree; only their test surface
(`tests/sentry/snuba/test_extraction.py`) is.  Every definition below is
therefore modelled from the specification document, with the concrete
behaviours pinned down by the test file.  Numeric condition values (floats in
the JSON output) are modelled as exact integers: every literal exercised by
the specification and the tests is integral (`1s` -> 1000.0, `300` -> 300.0).
-/

/-- Modelled from the spec: boolean operators of the token tree (§3).  The
tokenizer recognises `AND` / `OR` case-insensitively and normalises them. -/
inductive BoolOp where
  | and
  | or
  deriving DecidableEq

/-- Modelled from the spec: the comparison operator carried by a query filter
(`:` -> eq, `>` -> gt, `>=` -> gte, `<` -> lt, `<=` -> lte) (§4.4, §6). -/
inductive FilterOp where
  | eq
  | gt
  | gte
  | lt
  | lte
  deriving DecidableEq

/-- Modelled from the spec: a filter value is either a single literal or a
bracketed list literal `[a,b,c]` (§6). -/
inductive FilterValue where
  | single (s : String)
  | list (xs : List String)
  deriving DecidableEq

/-- Modelled from the spec: `Filter(field, operator, value)` token, with the
negation marker `!field:value` (§3, §6). -/
structure SearchFilter where
  negated : Bool
  key : String
  op : FilterOp
  value : FilterValue
  deriving DecidableEq

/-- Modelled from the spec: the token tree produced by the external tokenizer:
filters, boolean operators and parenthesised groups (§3).  The sequence itself
is flat; precedence is applied later by the condition compiler. -/
inductive QueryToken where
  | filter (f : SearchFilter)
  | op (b : BoolOp)
  | paren (children : List QueryToken)

/-- Modelled from the spec: datasets accepted by the classifier entry point. -/
inductive Dataset where
  | performanceMetrics
  | transactions
  | events
  deriving DecidableEq

/-- Modelled from the spec: metric types `c`ounter, `d`istribution, `s`et,
`g`auge (§3, §6). -/
inductive MetricType where
  | c
  | d
  | s
  | g
  deriving DecidableEq

/-- Modelled from the spec: declared value type of a catalog field (§3). -/
inductive FieldType where
  | string
  | duration
  | number
  deriving DecidableEq

/-- Modelled from the spec: a Field Catalog entry (§3). -/
structure FieldEntry where
  canonicalName : String
  valueType : FieldType
  supportedByStandardMetrics : Bool
  ignored : Bool
  deriving DecidableEq

/-- Modelled from the spec: a scalar condition value; floats are represented
exactly (integral in every pinned behaviour). -/
inductive Scalar where
  | num (n : Int)
  | str (s : String)
  deriving DecidableEq

/-- Modelled from the spec: condition comparison operators (§3, §6). -/
inductive CmpOp where
  | eq
  | gt
  | gte
  | lt
  | lte
  | glob
  deriving DecidableEq

/-- Modelled from the spec: a condition value is a scalar or a list of
scalars (§3). -/
inductive CmpValue where
  | scalar (s : Scalar)
  | list (xs : List Scalar)
  deriving DecidableEq

/-- Modelled from the spec: the compiled condition tree (§3, §6): leaf
comparisons joined by `and` / `or` / `not`. -/
inductive Condition where
  | cmp (name : String) (op : CmpOp) (value : CmpValue)
  | and (inner : List Condition)
  | or (inner : List Condition)
  | not (inner : Condition)

/-- Modelled from the spec: error taxonomy of the core (§7). -/
inductive SpecError where
  | queryError
  | unsupportedAggregate
  | unknownField
  | operatorTypeMismatch
  | invalidLiteral
  deriving DecidableEq

/-- Modelled from the spec: a resolved aggregate (§3): metric type, reducer
op, optional target field, optional embedded condition. -/
structure ResolvedAggregate where
  metricType : MetricType
  op : String
  field : Option String
  embeddedCondition : Option Condition

/-- Modelled from the spec: outcome of the Aggregate Resolver; `Unsupported`
is a valid negative signal, not an error (§4.2). -/
inductive AggregateResolution where
  | unsupported
  | resolved (r : ResolvedAggregate)

/-- Modelled from the spec: the Field Catalog (§3, §4.1).  Entries cover the
fields exercised by the specification and the compiler's tests; unknown
fields are handled conservatively by `lookupField` callers. -/
def fieldCatalog : List (String × FieldEntry) :=
  [ ("release", ⟨"event.release", .string, true, false⟩),
    ("transaction.op", ⟨"event.contexts.trace.op", .string, true, false⟩),
    ("os.name", ⟨"event.os.name", .string, true, false⟩),
    ("environment", ⟨"event.environment", .string, true, false⟩),
    ("browser.version", ⟨"event.browser.version", .string, true, false⟩),
    ("transaction.duration", ⟨"event.duration", .duration, false, false⟩),
    ("release.version", ⟨"event.release.version.short", .string, false, false⟩),
    ("measurements.fp", ⟨"event.measurements.fp", .duration, false, false⟩),
    ("measurements.lcp", ⟨"event.measurements.lcp", .duration, false, false⟩),
    ("project", ⟨"event.project", .string, true, true⟩),
    ("event.type", ⟨"event.type", .string, true, true⟩) ]

/-- Modelled from the spec: `resolve(field_name) -> Option<FieldCatalogEntry>`
(§4.1). -/
def lookupField (k : String) : Option FieldEntry :=
  (fieldCatalog.find? (fun p => p.1 == k)).map (fun p => p.2)

/-! ## External tokenizer (`parse_search_query`), modelled from §6 -/

/-- Modelled from the spec: raw lexemes of the query grammar: parentheses and
whitespace-separated words (§6). -/
inductive RawTok where
  | lparen
  | rparen
  | word (w : List Char)
  deriving DecidableEq

/-- Emit the pending word accumulator, if non-empty. -/
def lexFlush (acc : List Char) : List RawTok :=
  match acc with
  | [] => []
  | _ => [.word acc]

/-- Modelled from the spec: the lexer of the external tokenizer.  Spaces
separate words; parentheses are stand-alone lexemes (§6). -/
def lexAux (acc : List Char) : List Char → List RawTok
  | [] => lexFlush acc
  | c :: cs =>
    if c = ' ' then lexFlush acc ++ lexAux [] cs
    else if c = '(' then lexFlush acc ++ .lparen :: lexAux [] cs
    else if c = ')' then lexFlush acc ++ .rparen :: lexAux [] cs
    else lexAux (acc ++ [c]) cs

/-- Split a char list at the first occurrence of `c`. -/
def splitFirst (c : Char) : List Char → Option (List Char × List Char)
  | [] => none
  | x :: xs =>
    if x = c then some ([], xs)
    else
      match splitFirst c xs with
      | none => none
      | some p => some (x :: p.1, p.2)

/-- Split a char list on every occurrence of `c`; always returns at least one
(possibly empty) segment. -/
def splitAllChar (c : Char) : List Char → List (List Char)
  | [] => [[]]
  | x :: xs =>
    if x = c then [] :: splitAllChar c xs
    else
      match splitAllChar c xs with
      | [] => [[x]]
      | s :: ss => (x :: s) :: ss

/-- Join char lists with the separator `c`. -/
def intercalChar (c : Char) : List (List Char) → List Char
  | [] => []
  | [x] => x
  | x :: xs => x ++ c :: intercalChar c xs

/-- Modelled from the spec: the comparison operator marker at the front of a
filter value (`>=`, `<=`, `>`, `<`, or none for `:` equality) (§6). -/
def parseCmpMarker : List Char → FilterOp × List Char
  | '>' :: '=' :: v => (.gte, v)
  | '<' :: '=' :: v => (.lte, v)
  | '>' :: v => (.gt, v)
  | '<' :: v => (.lt, v)
  | v => (.eq, v)

/-- Modelled from the spec: a value is a bracketed list literal `[a,b,c]` or a
single literal (§6). -/
def parseValueChars (v : List Char) : FilterValue :=
  match v with
  | '[' :: rest =>
    if rest.getLast? = some ']' then
      .list ((splitAllChar ',' rest.dropLast).map String.mk)
    else .single (String.mk v)
  | _ => .single (String.mk v)

/-- Parse one word into a filter token: `key:value` with operator marker and
optional negation already stripped. -/
def parseFilterWord (neg : Bool) (w : List Char) : Option QueryToken :=
  match splitFirst ':' w with
  | none => none
  | some (key, rest) =>
    if key = [] then none
    else
      let p := parseCmpMarker rest
      some (.filter ⟨neg, String.mk key, p.1, parseValueChars p.2⟩)

/-- Modelled from the spec: parse one word: case-insensitive `AND` / `OR`, or
a (possibly negated) filter (§6). -/
def parseWordToken (w : List Char) : Option QueryToken :=
  if w.map Char.toUpper = "AND".data then some (.op .and)
  else if w.map Char.toUpper = "OR".data then some (.op .or)
  else
    match w with
    | '!' :: w1 => parseFilterWord true w1
    | w1 => parseFilterWord false w1

/-- Modelled from the spec: group the lexeme stream into the token tree with
an explicit stack of open groups; fails on unbalanced parentheses or
unparseable words (§6, §7 `QueryError`). -/
def parseStack : List RawTok → List QueryToken → List (List QueryToken) → Option (List QueryToken)
  | [], cur, [] => some cur.reverse
  | [], _, _ :: _ => none
  | .lparen :: rest, cur, stack => parseStack rest [] (cur :: stack)
  | .rparen :: _, _, [] => none
  | .rparen :: rest, cur, parent :: stack => parseStack rest (.paren cur.reverse :: parent) stack
  | .word w :: rest, cur, stack =>
    match parseWordToken w with
    | none => none
    | some t => parseStack rest (t :: cur) stack

/-- Modelled from the spec: the external tokenizer
`parse_search_query : query text -> token tree` (§1 non-goals, §6). -/
def parse_search_query (q : String) : Option (List QueryToken) :=
  parseStack (lexAux [] q.data) [] []

/-! ## Rendering (`query_tokens_to_string`), modelled from §4.5 -/

/-- Characters of a comparison operator marker. -/
def filterOpChars : FilterOp → List Char
  | .eq => []
  | .gt => ['>']
  | .gte => ['>', '=']
  | .lt => ['<']
  | .lte => ['<', '=']

/-- Characters of a filter value. -/
def valueChars : FilterValue → List Char
  | .single s => s.data
  | .list xs => '[' :: intercalChar ',' (xs.map String.data) ++ [']']

/-- The query word denoting a filter token. -/
def wordOfFilter (f : SearchFilter) : List Char :=
  (if f.negated then ['!'] else []) ++ f.key.data ++ ':' :: (filterOpChars f.op ++ valueChars f.value)

/-- Characters of a boolean operator token. -/
def boolOpChars : BoolOp → List Char
  | .and => "AND".data
  | .or => "OR".data

mutual
/-- Render one token back to query text (§4.5 `render`). -/
def renderTok : QueryToken → List Char
  | .filter f => wordOfFilter f
  | .op b => boolOpChars b
  | .paren cs => '(' :: renderToks cs ++ [')']
/-- Render a token sequence, space-separated. -/
def renderToks : List QueryToken → List Char
  | [] => []
  | [t] => renderTok t
  | t :: rest => renderTok t ++ ' ' :: renderToks rest
end

/-- Modelled from the spec: `query_tokens_to_string` renders a token tree back
to query text (§4.5 `render`). -/
def query_tokens_to_string (ts : List QueryToken) : String :=
  String.mk (renderToks ts)

mutual
/-- The lexeme stream a token denotes (used to state lexer round-trips). -/
def flatTok : QueryToken → List RawTok
  | .filter f => [.word (wordOfFilter f)]
  | .op b => [.word (boolOpChars b)]
  | .paren cs => .lparen :: flatToks cs ++ [.rparen]
/-- The lexeme stream a token sequence denotes. -/
def flatToks : List QueryToken → List RawTok
  | [] => []
  | t :: rest => flatTok t ++ flatToks rest
end

/-! ## Token Normalizer (`cleanup_query`), modelled from §4.5 -/

/-- Is this token a boolean operator? -/
def isOpTok : QueryToken → Bool
  | .op _ => true
  | _ => false

/-- Drop boolean-operator tokens from the end of a sequence. -/
def dropTrailingOps : List QueryToken → List QueryToken
  | [] => []
  | t :: rest =>
    match dropTrailingOps rest with
    | [] => if isOpTok t then [] else [t]
    | r => t :: r

/-- Two adjacent boolean operators collapse to one; the survivor is `OR` if
either is `OR`, else `AND` (§4.5, pinned by the downgrader tests). -/
def joinOps (b1 b2 : BoolOp) : BoolOp :=
  match b2 with
  | .or => .or
  | .and => b1

/-- One pass keeping a pending previous token, merging operator runs. -/
def collapseAux : QueryToken → List QueryToken → List QueryToken
  | p, [] => [p]
  | .op b1, .op b2 :: rest => collapseAux (.op (joinOps b1 b2)) rest
  | p, t :: rest => p :: collapseAux t rest

/-- Collapse every run of adjacent boolean operators to one operator. -/
def collapseRuns : List QueryToken → List QueryToken
  | [] => []
  | t :: rest => collapseAux t rest

mutual
/-- Normalize one token: groups are cleaned recursively, then an empty group
is dropped and a single-child group collapses to its child (§4.5). -/
def cleanupTok : QueryToken → List QueryToken
  | .filter f => [.filter f]
  | .op b => [.op b]
  | .paren cs =>
    match collapseRuns (dropTrailingOps (List.dropWhile isOpTok (elimEmptyToks cs))) with
    | [] => []
    | [t] => [t]
    | l => [.paren l]
/-- Normalize every token of a sequence, splicing the per-token results. -/
def elimEmptyToks : List QueryToken → List QueryToken
  | [] => []
  | t :: rest => cleanupTok t ++ elimEmptyToks rest
end

/-- Modelled from the spec: the Token Normalizer `cleanup_query` (§4.5):
clean groups bottom-up, strip leading and trailing operators, collapse
operator runs. -/
def cleanup_query (ts : List QueryToken) : List QueryToken :=
  collapseRuns (dropTrailingOps (List.dropWhile isOpTok (elimEmptyToks ts)))

/-! ## Cleanliness and well-formedness predicates -/

/-- Does the sequence start with a boolean operator? -/
def headIsOp : List QueryToken → Bool
  | .op _ :: _ => true
  | _ => false

/-- Does the sequence end with a boolean operator? -/
def lastIsOp : List QueryToken → Bool
  | [] => false
  | [t] => isOpTok t
  | _ :: rest => lastIsOp rest

/-- Does the sequence contain two adjacent boolean operators? -/
def adjOps : List QueryToken → Bool
  | [] => false
  | .op _ :: .op _ :: _ => true
  | _ :: rest => adjOps rest

/-- Does the sequence have at least two elements? -/
def multiTok : List QueryToken → Bool
  | _ :: _ :: _ => true
  | _ => false

mutual
/-- A token is clean when every group inside it is a normalized sequence of
two or more tokens (§4.5 invariants). -/
def tokClean : QueryToken → Bool
  | .filter _ => true
  | .op _ => true
  | .paren cs =>
    toksClean cs && !headIsOp cs && !lastIsOp cs && !adjOps cs && multiTok cs
/-- Every token of the sequence is clean. -/
def toksClean : List QueryToken → Bool
  | [] => true
  | t :: rest => tokClean t && toksClean rest
end

/-- A normalized token sequence: clean tokens, no operator at either end, no
adjacent operators. -/
def listClean (ts : List QueryToken) : Bool :=
  toksClean ts && !headIsOp ts && !lastIsOp ts && !adjOps ts

/-- A character the lexer treats as ordinary word material. -/
def goodChar (c : Char) : Bool :=
  !(c == ' ' || c == '(' || c == ')')

/-- Every character is ordinary word material. -/
def goodChars (cs : List Char) : Bool :=
  cs.all goodChar

/-- The head of a single value must not collide with an operator marker. -/
def valueHeadOk : FilterOp → List Char → Bool
  | .eq, c :: _ => !(c == '>' || c == '<')
  | .gt, c :: _ => !(c == '=')
  | .lt, c :: _ => !(c == '=')
  | _, _ => true

/-- A single value must not itself look like a bracketed list literal. -/
def notBracketPair : List Char → Bool
  | '[' :: rest => !(rest.getLast? == some ']')
  | _ => true

/-- A well-formed (renderable) filter value. -/
def wfValue : FilterOp → FilterValue → Bool
  | fop, .single s => goodChars s.data && valueHeadOk fop s.data && notBracketPair s.data
  | _, .list xs => !xs.isEmpty && xs.all (fun s => goodChars s.data && !(s.data.contains ','))

/-- The first character of a non-negated key must not be the negation mark. -/
def headNotBang : List Char → Bool
  | c :: _ => !(c == '!')
  | [] => true

/-- A well-formed (renderable) filter: exactly the filters the external
tokenizer can produce from query text. -/
def wfFilter (f : SearchFilter) : Bool :=
  !f.key.data.isEmpty && goodChars f.key.data && !(f.key.data.contains ':') &&
    (f.negated || headNotBang f.key.data) && wfValue f.op f.value

mutual
/-- A well-formed token. -/
def wfTok : QueryToken → Bool
  | .filter f => wfFilter f
  | .op _ => true
  | .paren cs => wfToks cs
/-- A well-formed token sequence. -/
def wfToks : List QueryToken → Bool
  | [] => true
  | t :: rest => wfTok t && wfToks rest
end

/-- A rendered fragment may be followed by nothing, a space, or a closing
parenthesis without disturbing the lexer. -/
def boundarySuffix : List Char → Bool
  | [] => true
  | c :: _ => c == ' ' || c == ')'

/-! ## Aggregate Resolver, modelled from §4.2 -/

/-- Does `p` occur as a leading segment of the char list? -/
def listStartsWith : List Char → List Char → Bool
  | [], _ => true
  | _ :: _, [] => false
  | p :: ps, c :: cs => p == c && listStartsWith ps cs

/-- Decimal digit accumulator; fails on any non-digit. -/
def digitsVal (acc : Nat) : List Char → Option Nat
  | [] => some acc
  | c :: cs => if c.isDigit then digitsVal (acc * 10 + (c.toNat - 48)) cs else none

/-- Parse a plain decimal integer literal. -/
def parseIntLit (cs : List Char) : Option Int :=
  match cs with
  | [] => none
  | _ => (digitsVal 0 cs).map Int.ofNat

/-- Modelled from the spec: duration literals are coerced to milliseconds
(`1s` -> 1000, `10s` -> 10000, bare numbers are already milliseconds)
(§4.4). -/
def parseDurationLit (cs : List Char) : Option Int :=
  match cs.reverse with
  | 's' :: 'm' :: rest => parseIntLit rest.reverse
  | 's' :: rest => (parseIntLit rest.reverse).map (· * 1000)
  | 'm' :: rest => (parseIntLit rest.reverse).map (· * 60000)
  | 'h' :: rest => (parseIntLit rest.reverse).map (· * 3600000)
  | _ => parseIntLit cs

/-- Modelled from the spec: coerce a literal to the field's declared value
type (§4.4). -/
def coerceScalar (t : FieldType) (v : String) : Option Scalar :=
  match t with
  | .string => some (.str v)
  | .duration => (parseDurationLit v.data).map .num
  | .number => (parseIntLit v.data).map .num

/-- Coerce every element of a list literal. -/
def coerceList (t : FieldType) : List String → Option (List Scalar)
  | [] => some []
  | v :: vs =>
    match coerceScalar t v, coerceList t vs with
    | some s, some ss => some (s :: ss)
    | _, _ => none

/-- Modelled from the spec: split `name(arg,...)` into function name and raw
argument strings (§4.2). -/
def parseFunctionCall (cs : List Char) : Option (String × List String) :=
  match splitFirst '(' cs with
  | none => none
  | some (name, rest) =>
    if name = [] then none
    else if rest.getLast? = some ')' then
      match rest.dropLast with
      | [] => some (String.mk name, [])
      | inner => some (String.mk name, (splitAllChar ',' inner).map String.mk)
    else none

/-- Modelled from the spec: the `count_if` comparison keyword mapping
(`equals` -> eq, etc.) (§4.2). -/
def countIfOpMap (s : String) : Option FilterOp :=
  match s with
  | "equals" => some .eq
  | "greater" => some .gt
  | "greaterOrEquals" => some .gte
  | "less" => some .lt
  | "lessOrEquals" => some .lte
  | _ => none

/-- Map a query filter operator to a condition comparison operator (§4.4). -/
def mapFilterOp : FilterOp → CmpOp
  | .eq => .eq
  | .gt => .gt
  | .gte => .gte
  | .lt => .lt
  | .lte => .lte

/-- Modelled from the spec: dispatch on the recognised function names:
`count()` -> counter/sum; `p50/p75/p90/p95/p99(field)` -> distribution;
`count_if(field,op,value)` -> counter/sum with an embedded condition; every
other name (including `failure_rate`, `count_unique`, `last_seen`, `any`)
resolves to `Unsupported` (§4.2). -/
def resolveFunctionCall (name : String) (args : List String) : AggregateResolution :=
  match name, args with
  | "count", [] => .resolved ⟨.c, "sum", none, none⟩
  | "count_if", [f, o, v] =>
    (match lookupField f, countIfOpMap o with
     | some e, some fop =>
       (match coerceScalar e.valueType v with
        | some sc =>
          .resolved ⟨.c, "sum", none, some (.cmp e.canonicalName (mapFilterOp fop) (.scalar sc))⟩
        | none => .unsupported)
     | _, _ => .unsupported)
  | pct, [f] =>
    if ["p50", "p75", "p90", "p95", "p99"].contains pct then
      (match lookupField f with
       | some e => .resolved ⟨.d, pct, some e.canonicalName, none⟩
       | none => .unsupported)
    else .unsupported
  | _, _ => .unsupported

/-- Modelled from the spec: the Aggregate Resolver (§4.2).  Equation
aggregates and unparseable expressions resolve to `Unsupported`. -/
def resolveAggregate (agg : String) : AggregateResolution :=
  if listStartsWith "equation|".data agg.data then .unsupported
  else
    match parseFunctionCall agg.data with
    | none => .unsupported
    | some p => resolveFunctionCall p.1 p.2

/-! ## Eligibility Classifier, modelled from §4.3 -/

/-- Modelled from the spec: a field forces on-demand when it is not supported
by standard metrics and not ignored; unknown fields are conservatively
treated as unsupported and non-ignored (§4.1, §4.3). -/
def fieldTriggers (k : String) : Bool :=
  match lookupField k with
  | none => true
  | some e => !e.supportedByStandardMetrics && !e.ignored

mutual
/-- Does the token reference a field forcing on-demand? -/
def tokHasOD : QueryToken → Bool
  | .filter f => fieldTriggers f.key
  | .op _ => false
  | .paren cs => listHasOD cs
/-- Does the sequence reference a field forcing on-demand? -/
def listHasOD : List QueryToken → Bool
  | [] => false
  | t :: rest => tokHasOD t || listHasOD rest
end

mutual
/-- Every query field referenced by a token. -/
def tokFields : QueryToken → List String
  | .filter f => [f.key]
  | .op _ => []
  | .paren cs => listFields cs
/-- Every query field referenced by a sequence. -/
def listFields : List QueryToken → List String
  | [] => []
  | t :: rest => tokFields t ++ listFields rest
end

/-- Modelled from the spec: the Eligibility Classifier
`should_use_on_demand_metrics(dataset, aggregate, query)` (§4.3), with the
behaviour on `Unsupported` aggregates pinned by the compiler's tests: an
unsupported aggregate yields `false` regardless of the query; otherwise the
query must reference a field unsupported by standard metrics.  An
unparseable query yields `false`. -/
def should_use_on_demand_metrics (_dataset : Dataset) (aggregate query : String) : Bool :=
  match parse_search_query query with
  | none => false
  | some ts =>
    match resolveAggregate aggregate with
    | .unsupported => false
    | .resolved _ => listHasOD ts

/-- Modelled from the spec: the decision rule exactly as claim C1 words it
(for comparison with `should_use_on_demand_metrics`): on-demand iff the
aggregate resolves to `Unsupported`, or some non-ignored field referenced in
the query's token tree or inside the aggregate's own field / embedded
condition is unsupported by standard metrics. -/
def specClaimC1Rule (_dataset : Dataset) (aggregate query : String) : Bool :=
  (match resolveAggregate aggregate with
   | .unsupported => true
   | .resolved _ => false) ||
  (match parse_search_query query with
   | none => false
   | some ts =>
     (listFields ts ++
         (match parseFunctionCall aggregate.data with
          | some (_, f :: _) => [f]
          | _ => [])).any fieldTriggers)

/-! ## Condition Compiler, modelled from §4.4 -/

/-- Wrap a condition in `Logical(not)` for a negated filter (§4.4). -/
def negWrap (neg : Bool) (c : Condition) : Condition :=
  if neg then .not c else c

/-- Modelled from the spec: compile one filter to an optional condition leaf
(§4.4): ignored fields elide to `None`; wildcard string values compile to a
`glob` whose value is the singleton pattern list; values are coerced to the
field's declared type; ordering operators on string fields are a type
mismatch. -/
def compileFilter (f : SearchFilter) : Except SpecError (Option Condition) :=
  match lookupField f.key with
  | none => .error .unknownField
  | some e =>
    if e.ignored then .ok none
    else
      match f.value with
      | .list xs =>
        if f.op = .eq then
          match coerceList e.valueType xs with
          | none => .error .invalidLiteral
          | some vs => .ok (some (negWrap f.negated (.cmp e.canonicalName .eq (.list vs))))
        else .error .operatorTypeMismatch
      | .single s =>
        if e.valueType = .string then
          if s.data.contains '*' then
            if f.op = .eq then
              .ok (some (negWrap f.negated (.cmp e.canonicalName .glob (.list [.str s]))))
            else .error .operatorTypeMismatch
          else if f.op = .eq then
            .ok (some (negWrap f.negated (.cmp e.canonicalName .eq (.scalar (.str s)))))
          else .error .operatorTypeMismatch
        else
          match coerceScalar e.valueType s with
          | none => .error .invalidLiteral
          | some sc =>
            .ok (some (negWrap f.negated (.cmp e.canonicalName (mapFilterOp f.op) (.scalar sc))))

/-- Collapse a conjunct group: zero conditions elide, one stands alone, two or
more join under `and` (§4.4 combining rule). -/
def closeConj : List Condition → Option Condition
  | [] => none
  | [c] => some c
  | l => some (.and l)

/-- Collapse the disjunct list: zero conditions elide, one stands alone, two
or more join under `or` (§4.4 combining rule). -/
def closeDisj : List Condition → Option Condition
  | [] => none
  | [c] => some c
  | l => some (.or l)

mutual
/-- Compile one non-operator token (§4.4): a filter becomes a leaf and a group
is compiled as a nested sequence. -/
def compileTok : QueryToken → Except SpecError (Option Condition)
  | .filter f => compileFilter f
  | .op _ => .ok none
  | .paren cs =>
    (compileGroups cs).map (fun gs => closeDisj (gs.filterMap closeConj))
/-- Split a token sequence at `OR` operators into groups of compiled
conjuncts, preserving left-to-right order; `AND` operators and elided
children are dropped (§4.4). -/
def compileGroups : List QueryToken → Except SpecError (List (List Condition))
  | [] => .ok [[]]
  | .op .or :: rest => (compileGroups rest).map (fun gs => [] :: gs)
  | .op .and :: rest => compileGroups rest
  | t :: rest =>
    match compileTok t, compileGroups rest with
    | .error e, _ => .error e
    | _, .error e => .error e
    | .ok none, .ok gs => .ok gs
    | .ok (some c), .ok [] => .ok [[c]]
    | .ok (some c), .ok (g :: gs) => .ok ((c :: g) :: gs)
end

/-- Modelled from the spec: compile a token sequence to an optional condition
tree, applying the combining rule at the outermost level (§4.4). -/
def compileQueryTokens (ts : List QueryToken) : Except SpecError (Option Condition) :=
  (compileGroups ts).map (fun gs => closeDisj (gs.filterMap closeConj))

/-- Modelled from the spec: conjoin the aggregate's embedded condition with
the query-derived condition under the same collapsing rule (§4.4). -/
def combineWithEmbedded (qc ec : Option Condition) : Option Condition :=
  match ec with
  | none => qc
  | some e =>
    match qc with
    | none => some e
    | some c => some (.and [c, e])

/-- Modelled from the spec: an on-demand metric specification is created from
an aggregate expression and a query string (§6). -/
structure OnDemandMetricSpec where
  aggregate : String
  query : String

/-- Modelled from the spec: the compiled condition of a specification (§4.4,
§6): resolve the aggregate, tokenize the query, compile, and conjoin the
embedded condition. -/
def OnDemandMetricSpec.condition (s : OnDemandMetricSpec) : Except SpecError (Option Condition) :=
  match resolveAggregate s.aggregate with
  | .unsupported => .error .unsupportedAggregate
  | .resolved r =>
    match parse_search_query s.query with
    | none => .error .queryError
    | some ts => (compileQueryTokens ts).map (fun qc => combineWithEmbedded qc r.embeddedCondition)

/-- The query-only compilation pipeline (no aggregate involved). -/
def queryOnlyCondition (q : String) : Except SpecError (Option Condition) :=
  match parse_search_query q with
  | none => .error .queryError
  | some ts => compileQueryTokens ts

/-! ## Standard-Query Downgrader, modelled from §4.6 -/

mutual
/-- Remove every filter whose field is unsupported by standard metrics and
not ignored; groups are processed recursively (§4.6). -/
def downTok : QueryToken → List QueryToken
  | .filter f => if fieldTriggers f.key then [] else [.filter f]
  | .op b => [.op b]
  | .paren cs => [.paren (downToks cs)]
/-- Remove unsupported filters throughout a sequence. -/
def downToks : List QueryToken → List QueryToken
  | [] => []
  | t :: rest => downTok t ++ downToks rest
end

/-- Modelled from the spec: the Standard-Query Downgrader on token trees:
strip unsupported filters, then normalize (§4.6). -/
def to_standard_metrics_tokens (ts : List QueryToken) : List QueryToken :=
  cleanup_query (downToks ts)

/-- Modelled from the spec: `to_standard_metrics_query` over query text
(§4.6). -/
def to_standard_metrics_query (q : String) : Option String :=
  (parse_search_query q).map (fun ts => query_tokens_to_string (to_standard_metrics_tokens ts))

/-! ## Theorems -/

theorem headIsOp_cons (t : QueryToken) (l : List QueryToken) :
    headIsOp (t :: l) = isOpTok t := by
  cases t <;> rfl

theorem lastIsOp_single (t : QueryToken) : lastIsOp [t] = isOpTok t := rfl

theorem lastIsOp_cons_cons (t r : QueryToken) (rs : List QueryToken) :
    lastIsOp (t :: r :: rs) = lastIsOp (r :: rs) := rfl

theorem adjOps_single (t : QueryToken) : adjOps [t] = false := by
  cases t <;> rfl

mutual
theorem tokHasOD_iff : ∀ t : QueryToken,
    tokHasOD t = true ↔ ∃ k ∈ tokFields t, fieldTriggers k = true
  | .filter f => by simp [tokHasOD, tokFields]
  | .op b => by simp [tokHasOD, tokFields]
  | .paren cs => by simpa [tokHasOD, tokFields] using listHasOD_iff cs
theorem listHasOD_iff : ∀ ts : List QueryToken,
    listHasOD ts = true ↔ ∃ k ∈ listFields ts, fieldTriggers k = true
  | [] => by simp [listHasOD, listFields]
  | t :: rest => by
    have h1 := tokHasOD_iff t
    have h2 := listHasOD_iff rest
    simp only [listHasOD, listFields, Bool.or_eq_true, h1, h2, List.mem_append]
    constructor
    · rintro (⟨k, hk, hT⟩ | ⟨k, hk, hT⟩)
      · exact ⟨k, Or.inl hk, hT⟩
      · exact ⟨k, Or.inr hk, hT⟩
    · rintro ⟨k, hk | hk, hT⟩
      · exact Or.inl ⟨k, hk, hT⟩
      · exact Or.inr ⟨k, hk, hT⟩
end

/-- C2: whenever the aggregate expression resolves to `Unsupported` (for
example `failure_rate()`, `count_unique(...)`, `last_seen()`, `any(...)`,
equation aggregates, or an unknown function name), the classifier
`should_use_on_demand_metrics` returns `false` for every dataset and every
query. -/
theorem unsupported_aggregate_never_on_demand (d : Dataset) (agg q : String)
    (h : resolveAggregate agg = .unsupported) :
    should_use_on_demand_metrics d agg q = false := by
  simp only [should_use_on_demand_metrics, h]
  cases parse_search_query q <;> rfl

theorem unsupported_aggregate_never_on_demand_witness :
    resolveAggregate "failure_rate()" = .unsupported ∧
    should_use_on_demand_metrics .performanceMetrics "failure_rate()"
      "transaction.duration:>1" = false :=
  ⟨rfl, unsupported_aggregate_never_on_demand .performanceMetrics "failure_rate()"
    "transaction.duration:>1" rfl⟩

/-- C1 (counterexample): at dataset `PerformanceMetrics`, aggregate
`failure_rate()` and query `transaction.duration:>1`, the rule claimed by C1
(`true` because the aggregate resolves to `Unsupported`, and also because
`transaction.duration` is a non-ignored field unsupported by standard
metrics) yields `true`, while the classifier returns `false`: the claimed
equivalence is refuted at this input. -/
theorem c1_claimed_rule_counterexample :
    specClaimC1Rule .performanceMetrics "failure_rate()" "transaction.duration:>1" = true ∧
    should_use_on_demand_metrics .performanceMetrics "failure_rate()"
      "transaction.duration:>1" = false :=
  ⟨rfl, rfl⟩

/-- C1 (amended): for every dataset, aggregate and parseable query, the
classifier returns `true` iff the aggregate does NOT resolve to `Unsupported`
AND some non-ignored field referenced in the query's token tree is
unsupported by standard metrics (fields inside the aggregate's own field or
embedded condition are not consulted, and an `Unsupported` aggregate forces
`false`). -/
theorem on_demand_iff_supported_aggregate_and_on_demand_field
    (d : Dataset) (agg q : String) (ts : List QueryToken)
    (hq : parse_search_query q = some ts) :
    should_use_on_demand_metrics d agg q = true ↔
      (resolveAggregate agg ≠ .unsupported ∧
        ∃ k ∈ listFields ts, fieldTriggers k = true) := by
  simp only [should_use_on_demand_metrics, hq]
  cases hr : resolveAggregate agg with
  | unsupported => simp
  | resolved r => simp [listHasOD_iff ts]

theorem on_demand_iff_supported_aggregate_and_on_demand_field_witness :
    parse_search_query "transaction.duration:>1" =
      some [.filter ⟨false, "transaction.duration", .gt, .single "1"⟩] ∧
    should_use_on_demand_metrics .performanceMetrics "count()"
      "transaction.duration:>1" = true := by
  refine ⟨rfl, ?_⟩
  refine (on_demand_iff_supported_aggregate_and_on_demand_field .performanceMetrics
    "count()" "transaction.duration:>1"
    [.filter ⟨false, "transaction.duration", .gt, .single "1"⟩] rfl).mpr ⟨?_, ?_⟩
  · intro h
    rw [show resolveAggregate "count()" = .resolved ⟨.c, "sum", none, none⟩ from rfl] at h
    exact AggregateResolution.noConfusion h
  · exact ⟨"transaction.duration", by simp [listFields, tokFields], rfl⟩

/-- C3: compiling `release:a OR transaction.op:b transaction.duration:>1s`
with aggregate `count()` groups the implicit-AND pair tighter than the
explicit OR: the result is `or` of the `release:a` leaf and an `and` of the
`transaction.op:b` and `transaction.duration:>1s` leaves, in order. -/
theorem boolean_precedence_implicit_and_binds_tighter :
    (OnDemandMetricSpec.mk "count()"
        "release:a OR transaction.op:b transaction.duration:>1s").condition =
      .ok (some (.or [.cmp "event.release" .eq (.scalar (.str "a")),
        .and [.cmp "event.contexts.trace.op" .eq (.scalar (.str "b")),
          .cmp "event.duration" .gt (.scalar (.num 1000))]])) := by
  unfold OnDemandMetricSpec.condition
  rw [show parse_search_query "release:a OR transaction.op:b transaction.duration:>1s" =
      some [.filter ⟨false, "release", .eq, .single "a"⟩, .op .or,
        .filter ⟨false, "transaction.op", .eq, .single "b"⟩,
        .filter ⟨false, "transaction.duration", .gt, .single "1s"⟩] from rfl]
  rfl

/-- C6: `OnDemandMetricSpec("count()", "transaction.duration:>1s")` compiles
to the single leaf `{name: event.duration, op: gt, value: 1000.0}`: the field
is mapped to its canonical name and the duration literal `1s` is coerced from
seconds to milliseconds (the float `1000.0` is represented exactly). -/
theorem duration_literal_coerced_to_milliseconds :
    (OnDemandMetricSpec.mk "count()" "transaction.duration:>1s").condition =
      .ok (some (.cmp "event.duration" .gt (.scalar (.num 1000)))) := by
  unfold OnDemandMetricSpec.condition
  rw [show parse_search_query "transaction.duration:>1s" =
      some [.filter ⟨false, "transaction.duration", .gt, .single "1s"⟩] from rfl]
  rfl

/-- C10: a filter whose value contains a wildcard compiles to a `glob` leaf
whose value is a singleton list holding the pattern string, not a bare
scalar. -/
theorem wildcard_compiles_to_glob_with_singleton_list :
    (OnDemandMetricSpec.mk "count()" "release.version:1.*").condition =
      .ok (some (.cmp "event.release.version.short" .glob (.list [.str "1.*"]))) := by
  unfold OnDemandMetricSpec.condition
  rw [show parse_search_query "release.version:1.*" =
      some [.filter ⟨false, "release.version", .eq, .single "1.*"⟩] from rfl]
  rfl

/-- C9: the Standard-Query Downgrader removes every filter whose field is
unsupported by standard metrics and not ignored, then normalizes:
`(transaction.duration:>=1 and geo.city:Vienna) or os.name:android`
downgrades to the tree of `os.name:android`, and queries whose filters are
all unsupported downgrade to the empty query. -/
theorem downgrader_strips_unsupported_filters :
    (parse_search_query
        "(transaction.duration:>=1 and geo.city:Vienna) or os.name:android").map
      to_standard_metrics_tokens = parse_search_query "os.name:android" ∧
    (parse_search_query "transaction.duration:>=1").map
      to_standard_metrics_tokens = some [] ∧
    (parse_search_query "transaction.duration:>=1 and geo.city:Vienna").map
      to_standard_metrics_tokens = some [] := by
  refine ⟨?_, ?_, ?_⟩
  · rw [show parse_search_query
        "(transaction.duration:>=1 and geo.city:Vienna) or os.name:android" =
        some [.paren [.filter ⟨false, "transaction.duration", .gte, .single "1"⟩,
            .op .and, .filter ⟨false, "geo.city", .eq, .single "Vienna"⟩],
          .op .or, .filter ⟨false, "os.name", .eq, .single "android"⟩] from rfl]
    rfl
  · rw [show parse_search_query "transaction.duration:>=1" =
        some [.filter ⟨false, "transaction.duration", .gte, .single "1"⟩] from rfl]
    rfl
  · rw [show parse_search_query "transaction.duration:>=1 and geo.city:Vienna" =
        some [.filter ⟨false, "transaction.duration", .gte, .single "1"⟩, .op .and,
          .filter ⟨false, "geo.city", .eq, .single "Vienna"⟩] from rfl]
    rfl

/-- C7: for a `count_if` aggregate, the embedded condition from the
aggregate's arguments is conjoined with `and` after the query-derived
condition under the standard collapsing rule: when the query compiles to no
condition the result is exactly the embedded leaf (no `and` wrapper), and
when the query compiles to a condition the result is `and` of the query
condition followed by the embedded leaf; in particular the empty query gives
the bare leaf and `release:a OR transaction.op:b` gives the `and` pair. -/
theorem count_if_embedded_condition_conjoined :
    (∀ q : String,
      (OnDemandMetricSpec.mk "count_if(transaction.duration,equals,300)" q).condition =
        (queryOnlyCondition q).map (fun qc =>
          match qc with
          | none => some (Condition.cmp "event.duration" .eq (.scalar (.num 300)))
          | some c => some (.and [c, .cmp "event.duration" .eq (.scalar (.num 300))]))) ∧
    (OnDemandMetricSpec.mk "count_if(transaction.duration,equals,300)" "").condition =
      .ok (some (.cmp "event.duration" .eq (.scalar (.num 300)))) ∧
    (OnDemandMetricSpec.mk "count_if(transaction.duration,equals,300)"
        "release:a OR transaction.op:b").condition =
      .ok (some (.and [.or [.cmp "event.release" .eq (.scalar (.str "a")),
          .cmp "event.contexts.trace.op" .eq (.scalar (.str "b"))],
        .cmp "event.duration" .eq (.scalar (.num 300))])) := by
  refine ⟨fun q => ?_, ?_, ?_⟩
  · unfold OnDemandMetricSpec.condition queryOnlyCondition
    rw [show resolveAggregate "count_if(transaction.duration,equals,300)" =
        .resolved ⟨.c, "sum", none,
          some (.cmp "event.duration" .eq (.scalar (.num 300)))⟩ from rfl]
    cases parse_search_query q with
    | none => rfl
    | some ts =>
      cases compileQueryTokens ts with
      | error e => rfl
      | ok qc => cases qc <;> rfl
  · unfold OnDemandMetricSpec.condition
    rw [show parse_search_query "" = some [] from rfl]
    rfl
  · unfold OnDemandMetricSpec.condition
    rw [show parse_search_query "release:a OR transaction.op:b" =
        some [.filter ⟨false, "release", .eq, .single "a"⟩, .op .or,
          .filter ⟨false, "transaction.op", .eq, .single "b"⟩] from rfl]
    rfl

theorem toksClean_append (a b : List QueryToken) :
    toksClean (a ++ b) = (toksClean a && toksClean b) := by
  induction a with
  | nil => simp [toksClean]
  | cons t rest ih => simp [toksClean, ih, Bool.and_assoc]

theorem headIsOp_dropWhile (l : List QueryToken) :
    headIsOp (List.dropWhile isOpTok l) = false := by
  induction l with
  | nil => rfl
  | cons t rest ih =>
    rw [List.dropWhile_cons]
    split
    · exact ih
    · rename_i h
      rw [headIsOp_cons]
      exact Bool.eq_false_iff.mpr h

theorem toksClean_dropWhile (l : List QueryToken) (h : toksClean l = true) :
    toksClean (List.dropWhile isOpTok l) = true := by
  induction l with
  | nil => exact h
  | cons t rest ih =>
    simp only [toksClean, Bool.and_eq_true] at h
    rw [List.dropWhile_cons]
    split
    · exact ih h.2
    · simpa [toksClean, h.1] using h.2

theorem lastIsOp_dropWhile (l : List QueryToken) (h : lastIsOp l = false) :
    lastIsOp (List.dropWhile isOpTok l) = false := by
  induction l with
  | nil => exact h
  | cons t rest ih =>
    rw [List.dropWhile_cons]
    split
    · rename_i ht
      cases rest with
      | nil =>
        rw [lastIsOp_single] at h
        rw [ht] at h
        exact absurd h (by simp)
      | cons r rs =>
        rw [lastIsOp_cons_cons] at h
        exact ih h
    · exact h

theorem lastIsOp_dropTrailingOps (l : List QueryToken) :
    lastIsOp (dropTrailingOps l) = false := by
  induction l with
  | nil => rfl
  | cons t rest ih =>
    rw [dropTrailingOps]
    cases hr : dropTrailingOps rest with
    | nil =>
      by_cases ht : isOpTok t = true
      · rw [if_pos ht]
        rfl
      · rw [if_neg ht, lastIsOp_single]
        exact Bool.eq_false_iff.mpr ht
    | cons r rs =>
      rw [lastIsOp_cons_cons]
      rw [hr] at ih
      exact ih

theorem headIsOp_dropTrailingOps (l : List QueryToken) (h : headIsOp l = false) :
    headIsOp (dropTrailingOps l) = false := by
  cases l with
  | nil => exact h
  | cons t rest =>
    rw [headIsOp_cons] at h
    rw [dropTrailingOps]
    cases dropTrailingOps rest with
    | nil =>
      rw [if_neg (by simp [h])]
      rw [headIsOp_cons]
      exact h
    | cons r rs =>
      rw [headIsOp_cons]
      exact h

theorem toksClean_dropTrailingOps (l : List QueryToken) (h : toksClean l = true) :
    toksClean (dropTrailingOps l) = true := by
  induction l with
  | nil => exact h
  | cons t rest ih =>
    simp only [toksClean, Bool.and_eq_true] at h
    rw [dropTrailingOps]
    cases hr : dropTrailingOps rest with
    | nil =>
      by_cases ht : isOpTok t = true
      · rw [if_pos ht]
        rfl
      · rw [if_neg ht]
        simp [toksClean, h.1]
    | cons r rs =>
      have h2 := ih h.2
      rw [hr] at h2
      simp only [toksClean, Bool.and_eq_true] at h2 ⊢
      exact ⟨h.1, h2⟩

theorem collapseAux_ne_nil (ts : List QueryToken) : ∀ p, collapseAux p ts ≠ [] := by
  induction ts with
  | nil => intro p; simp [collapseAux]
  | cons t rest ih =>
    intro p
    cases p <;> cases t <;> simp only [collapseAux] <;>
      first
        | exact ih _
        | simp

theorem collapseAux_head_of_nonop (ts : List QueryToken) (p : QueryToken)
    (hp : isOpTok p = false) : ∃ r, collapseAux p ts = p :: r := by
  cases ts with
  | nil => exact ⟨[], by cases p <;> rfl⟩
  | cons t rest =>
    cases p with
    | op b => exact absurd hp (by simp [isOpTok])
    | filter f => exact ⟨collapseAux t rest, by cases t <;> rfl⟩
    | paren cs => exact ⟨collapseAux t rest, by cases t <;> rfl⟩

theorem collapseAux_toksClean (ts : List QueryToken) :
    ∀ p, tokClean p = true → toksClean ts = true →
      toksClean (collapseAux p ts) = true := by
  induction ts with
  | nil =>
    intro p hp _
    simpa [collapseAux, toksClean] using hp
  | cons t rest ih =>
    intro p hp hts
    simp only [toksClean, Bool.and_eq_true] at hts
    cases p <;> cases t <;>
      simp only [collapseAux, toksClean, Bool.and_eq_true] <;>
      first
        | exact ih _ rfl hts.2
        | exact ⟨hp, ih _ hts.1 hts.2⟩

theorem collapseAux_adjOps (ts : List QueryToken) :
    ∀ p, adjOps (collapseAux p ts) = false := by
  induction ts with
  | nil =>
    intro p
    cases p <;> simp [collapseAux, adjOps]
  | cons t rest ih =>
    intro p
    cases p with
    | op b1 =>
      cases t with
      | op b2 => simpa [collapseAux] using ih (.op (joinOps b1 b2))
      | filter f =>
        obtain ⟨r, hr⟩ := collapseAux_head_of_nonop rest (.filter f) (by simp [isOpTok])
        have h2 := ih (QueryToken.filter f)
        rw [hr] at h2
        show adjOps (QueryToken.op b1 :: collapseAux (QueryToken.filter f) rest) = false
        rw [hr]
        exact h2
      | paren cs =>
        obtain ⟨r, hr⟩ := collapseAux_head_of_nonop rest (.paren cs) (by simp [isOpTok])
        have h2 := ih (QueryToken.paren cs)
        rw [hr] at h2
        show adjOps (QueryToken.op b1 :: collapseAux (QueryToken.paren cs) rest) = false
        rw [hr]
        exact h2
    | filter f =>
      have h2 := ih t
      obtain ⟨l0, ls, hL⟩ : ∃ l0 ls, collapseAux t rest = l0 :: ls := by
        cases hL : collapseAux t rest with
        | nil => exact absurd hL (collapseAux_ne_nil rest t)
        | cons a b => exact ⟨a, b, rfl⟩
      rw [hL] at h2
      have hred : collapseAux (QueryToken.filter f) (t :: rest) =
          QueryToken.filter f :: collapseAux t rest := by
        cases t <;> rfl
      rw [hred, hL]
      cases l0 <;> exact h2
    | paren cs =>
      have h2 := ih t
      obtain ⟨l0, ls, hL⟩ : ∃ l0 ls, collapseAux t rest = l0 :: ls := by
        cases hL : collapseAux t rest with
        | nil => exact absurd hL (collapseAux_ne_nil rest t)
        | cons a b => exact ⟨a, b, rfl⟩
      rw [hL] at h2
      have hred : collapseAux (QueryToken.paren cs) (t :: rest) =
          QueryToken.paren cs :: collapseAux t rest := by
        cases t <;> rfl
      rw [hred, hL]
      cases l0 <;> exact h2

theorem collapseAux_lastIsOp (ts : List QueryToken) :
    ∀ p, lastIsOp ts = false → (ts = [] → isOpTok p = false) →
      lastIsOp (collapseAux p ts) = false := by
  induction ts with
  | nil =>
    intro p _ h2
    have := h2 rfl
    cases p <;> simpa [collapseAux, lastIsOp_single] using this
  | cons t rest ih =>
    intro p h1 _
    cases p with
    | op b1 =>
      cases t with
      | op b2 =>
        cases rest with
        | nil => exact absurd h1 (by simp [lastIsOp_single, isOpTok])
        | cons r rs =>
          rw [lastIsOp_cons_cons] at h1
          simpa [collapseAux] using
            ih (.op (joinOps b1 b2)) h1 (by intro h; exact absurd h (by simp))
      | filter f =>
        have hrec : lastIsOp (collapseAux (QueryToken.filter f) rest) = false := by
          cases rest with
          | nil => exact ih _ rfl (fun _ => by simp [isOpTok])
          | cons r rs =>
            rw [lastIsOp_cons_cons] at h1
            exact ih _ h1 (by intro h; exact absurd h (by simp))
        obtain ⟨l0, ls, hL⟩ : ∃ l0 ls, collapseAux (QueryToken.filter f) rest = l0 :: ls := by
          cases hL : collapseAux (QueryToken.filter f) rest with
          | nil => exact absurd hL (collapseAux_ne_nil rest _)
          | cons a b => exact ⟨a, b, rfl⟩
        rw [hL] at hrec
        show lastIsOp (QueryToken.op b1 :: collapseAux (QueryToken.filter f) rest) = false
        rw [hL, lastIsOp_cons_cons]
        exact hrec
      | paren cs =>
        have hrec : lastIsOp (collapseAux (QueryToken.paren cs) rest) = false := by
          cases rest with
          | nil => exact ih _ rfl (fun _ => by simp [isOpTok])
          | cons r rs =>
            rw [lastIsOp_cons_cons] at h1
            exact ih _ h1 (by intro h; exact absurd h (by simp))
        obtain ⟨l0, ls, hL⟩ : ∃ l0 ls, collapseAux (QueryToken.paren cs) rest = l0 :: ls := by
          cases hL : collapseAux (QueryToken.paren cs) rest with
          | nil => exact absurd hL (collapseAux_ne_nil rest _)
          | cons a b => exact ⟨a, b, rfl⟩
        rw [hL] at hrec
        show lastIsOp (QueryToken.op b1 :: collapseAux (QueryToken.paren cs) rest) = false
        rw [hL, lastIsOp_cons_cons]
        exact hrec
    | filter f =>
      have hrec : lastIsOp (collapseAux t rest) = false := by
        cases rest with
        | nil =>
          apply ih _ rfl
          intro _
          rw [lastIsOp_single] at h1
          exact h1
        | cons r rs =>
          rw [lastIsOp_cons_cons] at h1
          exact ih _ h1 (by intro h; exact absurd h (by simp))
      obtain ⟨l0, ls, hL⟩ : ∃ l0 ls, collapseAux t rest = l0 :: ls := by
        cases hL : collapseAux t rest with
        | nil => exact absurd hL (collapseAux_ne_nil rest _)
        | cons a b => exact ⟨a, b, rfl⟩
      rw [hL] at hrec
      show lastIsOp (collapseAux (QueryToken.filter f) (t :: rest)) = false
      have hred : collapseAux (QueryToken.filter f) (t :: rest) =
          QueryToken.filter f :: collapseAux t rest := by
        cases t <;> rfl
      rw [hred, hL, lastIsOp_cons_cons]
      exact hrec
    | paren cs =>
      have hrec : lastIsOp (collapseAux t rest) = false := by
        cases rest with
        | nil =>
          apply ih _ rfl
          intro _
          rw [lastIsOp_single] at h1
          exact h1
        | cons r rs =>
          rw [lastIsOp_cons_cons] at h1
          exact ih _ h1 (by intro h; exact absurd h (by simp))
      obtain ⟨l0, ls, hL⟩ : ∃ l0 ls, collapseAux t rest = l0 :: ls := by
        cases hL : collapseAux t rest with
        | nil => exact absurd hL (collapseAux_ne_nil rest _)
        | cons a b => exact ⟨a, b, rfl⟩
      rw [hL] at hrec
      show lastIsOp (collapseAux (QueryToken.paren cs) (t :: rest)) = false
      have hred : collapseAux (QueryToken.paren cs) (t :: rest) =
          QueryToken.paren cs :: collapseAux t rest := by
        cases t <;> rfl
      rw [hred, hL, lastIsOp_cons_cons]
      exact hrec

theorem collapseAux_id (ts : List QueryToken) :
    ∀ p, adjOps (p :: ts) = false → collapseAux p ts = p :: ts := by
  induction ts with
  | nil =>
    intro p _
    cases p <;> rfl
  | cons t rest ih =>
    intro p h
    cases p with
    | op b1 =>
      cases t with
      | op b2 => exact absurd h (by simp [adjOps])
      | filter f =>
        have := ih (QueryToken.filter f) (by simpa [adjOps] using h)
        simpa [collapseAux] using this
      | paren cs =>
        have := ih (QueryToken.paren cs) (by simpa [adjOps] using h)
        simpa [collapseAux] using this
    | filter f =>
      have := ih t (by cases t <;> simpa [adjOps] using h)
      cases t <;> simpa [collapseAux] using this
    | paren cs =>
      have := ih t (by cases t <;> simpa [adjOps] using h)
      cases t <;> simpa [collapseAux] using this

theorem collapseRuns_toksClean (l : List QueryToken) (h : toksClean l = true) :
    toksClean (collapseRuns l) = true := by
  cases l with
  | nil => exact h
  | cons t rest =>
    simp only [toksClean, Bool.and_eq_true] at h
    exact collapseAux_toksClean rest t h.1 h.2

theorem collapseRuns_headIsOp (l : List QueryToken) (h : headIsOp l = false) :
    headIsOp (collapseRuns l) = false := by
  cases l with
  | nil => exact h
  | cons t rest =>
    rw [headIsOp_cons] at h
    obtain ⟨r, hr⟩ := collapseAux_head_of_nonop rest t h
    show headIsOp (collapseAux t rest) = false
    rw [hr, headIsOp_cons]
    exact h

theorem collapseRuns_lastIsOp (l : List QueryToken) (h : lastIsOp l = false) :
    lastIsOp (collapseRuns l) = false := by
  cases l with
  | nil => exact h
  | cons t rest =>
    show lastIsOp (collapseAux t rest) = false
    cases rest with
    | nil =>
      apply collapseAux_lastIsOp
      · rfl
      · intro _
        rw [lastIsOp_single] at h
        exact h
    | cons r rs =>
      rw [lastIsOp_cons_cons] at h
      exact collapseAux_lastIsOp (r :: rs) t h (by intro hx; exact absurd hx (by simp))

theorem collapseRuns_adjOps (l : List QueryToken) :
    adjOps (collapseRuns l) = false := by
  cases l with
  | nil => rfl
  | cons t rest => exact collapseAux_adjOps rest t

theorem collapseRuns_id (l : List QueryToken) (h : adjOps l = false) :
    collapseRuns l = l := by
  cases l with
  | nil => rfl
  | cons t rest => exact collapseAux_id rest t h

theorem phases_listClean (l : List QueryToken) (h : toksClean l = true) :
    listClean (collapseRuns (dropTrailingOps (List.dropWhile isOpTok l))) = true := by
  have h1c := toksClean_dropWhile l h
  have h1h := headIsOp_dropWhile l
  have h2c := toksClean_dropTrailingOps _ h1c
  have h2h := headIsOp_dropTrailingOps _ h1h
  have h2l := lastIsOp_dropTrailingOps (List.dropWhile isOpTok l)
  have h3c := collapseRuns_toksClean _ h2c
  have h3h := collapseRuns_headIsOp _ h2h
  have h3l := collapseRuns_lastIsOp _ h2l
  have h3a := collapseRuns_adjOps (dropTrailingOps (List.dropWhile isOpTok l))
  simp [listClean, h3c, h3h, h3l, h3a]

mutual
theorem cleanupTok_toksClean : ∀ t : QueryToken, toksClean (cleanupTok t) = true
  | .filter f => rfl
  | .op b => rfl
  | .paren cs => by
    have hM := phases_listClean (elimEmptyToks cs) (elimEmptyToks_toksClean cs)
    unfold cleanupTok
    split
    · rfl
    · rename_i t heq
      simp only [listClean, heq, Bool.and_eq_true] at hM
      simpa [toksClean] using hM.1.1.1
    · rename_i h1 h2
      simp only [listClean, Bool.and_eq_true] at hM
      have hmulti : multiTok
          (collapseRuns (dropTrailingOps (List.dropWhile isOpTok (elimEmptyToks cs)))) = true := by
        cases hL : collapseRuns (dropTrailingOps (List.dropWhile isOpTok (elimEmptyToks cs))) with
        | nil => exact absurd hL h1
        | cons a b =>
          cases b with
          | nil => exact absurd hL (h2 a)
          | cons c d => rfl
      simp [toksClean, tokClean, hM.1.1.1, hM.1.1.2, hM.1.2, hM.2, hmulti]
theorem elimEmptyToks_toksClean : ∀ ts : List QueryToken, toksClean (elimEmptyToks ts) = true
  | [] => rfl
  | t :: rest => by
    rw [elimEmptyToks, toksClean_append]
    simp [cleanupTok_toksClean t, elimEmptyToks_toksClean rest]
end

theorem cleanup_query_listClean (ts : List QueryToken) :
    listClean (cleanup_query ts) = true :=
  phases_listClean (elimEmptyToks ts) (elimEmptyToks_toksClean ts)

theorem dropWhile_id_of_headNotOp (l : List QueryToken) (h : headIsOp l = false) :
    List.dropWhile isOpTok l = l := by
  cases l with
  | nil => rfl
  | cons t rest =>
    rw [headIsOp_cons] at h
    rw [List.dropWhile_cons, if_neg (by simp [h])]

theorem dropTrailingOps_id_of_lastNotOp (l : List QueryToken) (h : lastIsOp l = false) :
    dropTrailingOps l = l := by
  induction l with
  | nil => rfl
  | cons t rest ih =>
    rw [dropTrailingOps]
    cases rest with
    | nil =>
      rw [lastIsOp_single] at h
      rw [show dropTrailingOps [] = [] from rfl, if_neg (by simp [h])]
    | cons r rs =>
      rw [lastIsOp_cons_cons] at h
      rw [ih h]

mutual
theorem cleanupTok_fix : ∀ t : QueryToken, tokClean t = true → cleanupTok t = [t]
  | .filter f => fun _ => rfl
  | .op b => fun _ => rfl
  | .paren cs => fun h => by
    simp only [tokClean, Bool.and_eq_true] at h
    obtain ⟨⟨⟨⟨hc, hh⟩, hl⟩, ha⟩, hm⟩ := h
    have he : elimEmptyToks cs = cs := elimEmptyToks_fix cs hc
    unfold cleanupTok
    rw [he, dropWhile_id_of_headNotOp cs (by simpa using hh),
      dropTrailingOps_id_of_lastNotOp cs (by simpa using hl),
      collapseRuns_id cs (by simpa using ha)]
    cases cs with
    | nil => exact absurd hm (by simp [multiTok])
    | cons a b =>
      cases b with
      | nil => exact absurd hm (by simp [multiTok])
      | cons c d => rfl
theorem elimEmptyToks_fix : ∀ ts : List QueryToken, toksClean ts = true → elimEmptyToks ts = ts
  | [] => fun _ => rfl
  | t :: rest => fun h => by
    simp only [toksClean, Bool.and_eq_true] at h
    rw [elimEmptyToks, cleanupTok_fix t h.1, elimEmptyToks_fix rest h.2]
    rfl
end

theorem cleanup_query_fix (ts : List QueryToken) (h : listClean ts = true) :
    cleanup_query ts = ts := by
  simp only [listClean, Bool.and_eq_true] at h
  obtain ⟨⟨⟨hc, hh⟩, hl⟩, ha⟩ := h
  unfold cleanup_query
  rw [elimEmptyToks_fix ts hc, dropWhile_id_of_headNotOp ts (by simpa using hh),
    dropTrailingOps_id_of_lastNotOp ts (by simpa using hl),
    collapseRuns_id ts (by simpa using ha)]

/-- C4: the Token Normalizer is idempotent: for every token tree (including
arbitrarily nested redundant boolean operators, empty groups, and
empty-parenthesis inputs), applying `cleanup_query` twice gives the same
tree as applying it once. -/
theorem cleanup_query_idempotent (ts : List QueryToken) :
    cleanup_query (cleanup_query ts) = cleanup_query ts :=
  cleanup_query_fix (cleanup_query ts) (cleanup_query_listClean ts)

theorem lexAux_cons (acc : List Char) (c : Char) (cs : List Char) :
    lexAux acc (c :: cs) =
      (if c = ' ' then lexFlush acc ++ lexAux [] cs
       else if c = '(' then lexFlush acc ++ .lparen :: lexAux [] cs
       else if c = ')' then lexFlush acc ++ .rparen :: lexAux [] cs
       else lexAux (acc ++ [c]) cs) := rfl

theorem lexAux_space (a : List Char) :
    ∀ acc b, lexAux acc (a ++ ' ' :: b) = lexAux acc a ++ lexAux [] b := by
  induction a with
  | nil =>
    intro acc b
    show lexAux acc (' ' :: b) = lexFlush acc ++ lexAux [] b
    rw [lexAux_cons, if_pos rfl]
  | cons c cs ih =>
    intro acc b
    by_cases h1 : c = ' '
    · simp [h1, lexAux_cons, ih, List.append_assoc]
    · by_cases h2 : c = '('
      · simp [h1, h2, lexAux_cons, ih, List.append_assoc]
      · by_cases h3 : c = ')'
        · simp [h1, h2, h3, lexAux_cons, ih, List.append_assoc]
        · simp [h1, h2, h3, lexAux_cons, ih]

theorem parseStack_append_word (items : List RawTok) :
    ∀ cur stack r (w : List Char) (t : QueryToken),
      parseStack items cur stack = some r → parseWordToken w = some t →
      parseStack (items ++ [.word w]) cur stack = some (r ++ [t]) := by
  induction items with
  | nil =>
    intro cur stack r w t h hw
    cases stack with
    | cons parent st => exact absurd h (by simp [parseStack])
    | nil =>
      simp only [parseStack] at h
      cases h
      show (match parseWordToken w with
        | none => none
        | some t => parseStack [] (t :: cur) []) = some (cur.reverse ++ [t])
      rw [hw]
      simp [parseStack, List.reverse_cons]
  | cons item rest ih =>
    intro cur stack r w t h hw
    cases item with
    | lparen => exact ih _ _ _ _ _ h hw
    | rparen =>
      cases stack with
      | nil => exact absurd h (by simp [parseStack])
      | cons parent st => exact ih _ _ _ _ _ h hw
    | word w2 =>
      cases hw2 : parseWordToken w2 with
      | none =>
        exfalso
        simp only [parseStack, hw2] at h
        exact Option.noConfusion h
      | some t2 =>
        have h2 : parseStack rest (t2 :: cur) stack = some r := by
          simpa only [parseStack, hw2] using h
        show (match parseWordToken w2 with
          | none => none
          | some t => parseStack (rest ++ [.word w]) (t :: cur) stack) = some (r ++ [t])
        rw [hw2]
        exact ih _ _ _ _ _ h2 hw

theorem compileGroups_append_ignored (F : SearchFilter) (hF : compileFilter F = .ok none) :
    ∀ ts, compileGroups (ts ++ [.filter F]) = compileGroups ts := by
  intro ts
  induction ts with
  | nil =>
    show compileGroups [.filter F] = compileGroups []
    have : compileTok (.filter F) = .ok none := hF
    simp only [compileGroups, this]
  | cons t rest ih =>
    cases t with
    | filter f =>
      simp only [List.cons_append, compileGroups, List.append_eq, ih]
    | op b =>
      cases b with
      | and => simpa only [List.cons_append, compileGroups, List.append_eq] using ih
      | or => simp only [List.cons_append, compileGroups, List.append_eq, ih]
    | paren cs =>
      simp only [List.cons_append, compileGroups, List.append_eq, ih]

theorem onDemandSpec_condition_def (agg q : String) :
    (OnDemandMetricSpec.mk agg q).condition =
      (match resolveAggregate agg with
       | .unsupported => .error .unsupportedAggregate
       | .resolved r =>
         match parse_search_query q with
         | none => .error .queryError
         | some ts =>
           (compileQueryTokens ts).map (fun qc => combineWithEmbedded qc r.embeddedCondition)) := rfl

/-- C8: appending an ignored-field filter (for example a `project` filter) to
a query never changes the compiled condition: for every aggregate, parseable
query `q` and single-word filter `f` whose field is ignored,
`OnDemandMetricSpec(agg, q ++ " " ++ f).condition` equals
`OnDemandMetricSpec(agg, q).condition`; the ignored filter never appears in
the output tree. -/
theorem ignored_filter_never_changes_condition (agg q f : String) (F : SearchFilter)
    (e : FieldEntry) (ts : List QueryToken)
    (hq : parse_search_query q = some ts)
    (hlex : lexAux [] f.data = [.word f.data])
    (hword : parseWordToken f.data = some (.filter F))
    (hfield : lookupField F.key = some e) (hign : e.ignored = true) :
    (OnDemandMetricSpec.mk agg (q ++ " " ++ f)).condition =
      (OnDemandMetricSpec.mk agg q).condition := by
  have hFnone : compileFilter F = .ok none := by
    simp [compileFilter, hfield, hign]
  have hdata : (q ++ " " ++ f).data = q.data ++ ' ' :: f.data := by
    simp [String.data_append]
  have hparse2 : parse_search_query (q ++ " " ++ f) = some (ts ++ [.filter F]) := by
    unfold parse_search_query
    rw [hdata, lexAux_space, hlex]
    exact parseStack_append_word _ _ _ _ _ _ hq hword
  have hcomp : compileQueryTokens (ts ++ [.filter F]) = compileQueryTokens ts := by
    unfold compileQueryTokens
    rw [compileGroups_append_ignored F hFnone ts]
  rw [onDemandSpec_condition_def, onDemandSpec_condition_def]
  cases resolveAggregate agg with
  | unsupported => rfl
  | resolved r =>
    rw [hparse2, hq]
    show (compileQueryTokens (ts ++ [QueryToken.filter F])).map
        (fun qc => combineWithEmbedded qc r.embeddedCondition) =
      (compileQueryTokens ts).map (fun qc => combineWithEmbedded qc r.embeddedCondition)
    rw [hcomp]

theorem ignored_filter_never_changes_condition_witness :
    (OnDemandMetricSpec.mk "count()"
        ("transaction.duration:>=1" ++ " " ++ "project:sentry")).condition =
      (OnDemandMetricSpec.mk "count()" "transaction.duration:>=1").condition :=
  ignored_filter_never_changes_condition "count()" "transaction.duration:>=1"
    "project:sentry" ⟨false, "project", .eq, .single "sentry"⟩
    ⟨"event.project", .string, true, true⟩
    [.filter ⟨false, "transaction.duration", .gte, .single "1"⟩]
    rfl rfl rfl rfl rfl

theorem goodChar_not_space {c : Char} (h : goodChar c = true) : ¬c = ' ' := by
  simp only [goodChar, Bool.not_eq_eq_eq_not, Bool.not_true, Bool.or_eq_false_iff,
    beq_eq_false_iff_ne, ne_eq] at h
  exact h.1.1

theorem goodChar_not_lparen {c : Char} (h : goodChar c = true) : ¬c = '(' := by
  simp only [goodChar, Bool.not_eq_eq_eq_not, Bool.not_true, Bool.or_eq_false_iff,
    beq_eq_false_iff_ne, ne_eq] at h
  exact h.1.2

theorem goodChar_not_rparen {c : Char} (h : goodChar c = true) : ¬c = ')' := by
  simp only [goodChar, Bool.not_eq_eq_eq_not, Bool.not_true, Bool.or_eq_false_iff,
    beq_eq_false_iff_ne, ne_eq] at h
  exact h.2

theorem goodChars_append (a b : List Char) :
    goodChars (a ++ b) = (goodChars a && goodChars b) := List.all_append

theorem goodChars_cons (c : Char) (cs : List Char) :
    goodChars (c :: cs) = (goodChar c && goodChars cs) := List.all_cons

theorem lexAux_goodWord (w : List Char) (hw : goodChars w = true) :
    ∀ acc suffix, lexAux acc (w ++ suffix) = lexAux (acc ++ w) suffix := by
  induction w with
  | nil => intro acc suffix; rw [List.nil_append, List.append_nil]
  | cons c cs ih =>
    intro acc suffix
    rw [goodChars_cons, Bool.and_eq_true] at hw
    rw [List.cons_append, lexAux_cons, if_neg (goodChar_not_space hw.1),
      if_neg (goodChar_not_lparen hw.1), if_neg (goodChar_not_rparen hw.1),
      ih hw.2, List.append_assoc]
    rfl

theorem lexAux_word (w : List Char) (hw : goodChars w = true) (hne : w ≠ [])
    (suffix : List Char) (hs : boundarySuffix suffix = true) :
    lexAux [] (w ++ suffix) = .word w :: lexAux [] suffix := by
  rw [lexAux_goodWord w hw [] suffix, List.nil_append]
  have hflush : lexFlush w = [.word w] := by
    cases w with
    | nil => exact absurd rfl hne
    | cons c cs => rfl
  cases suffix with
  | nil =>
    show lexFlush w = RawTok.word w :: lexFlush []
    rw [hflush]
    rfl
  | cons c s =>
    simp only [boundarySuffix, Bool.or_eq_true, beq_iff_eq] at hs
    cases hs with
    | inl hsp =>
      subst hsp
      rw [lexAux_cons, if_pos rfl, hflush, lexAux_cons, if_pos rfl]
      rfl
    | inr hrp =>
      subst hrp
      rw [lexAux_cons, if_neg (by decide), if_neg (by decide), if_pos rfl, hflush,
        lexAux_cons, if_neg (by decide), if_neg (by decide), if_pos rfl]
      rfl

theorem goodChars_intercal (ls : List (List Char))
    (h : ∀ l ∈ ls, goodChars l = true) : goodChars (intercalChar ',' ls) = true := by
  induction ls with
  | nil => rfl
  | cons x xs ih =>
    cases xs with
    | nil => exact h x (by simp)
    | cons y ys =>
      show goodChars (x ++ ',' :: intercalChar ',' (y :: ys)) = true
      rw [goodChars_append, goodChars_cons]
      have h1 := h x (by simp)
      have h2 : goodChars (intercalChar ',' (y :: ys)) = true :=
        ih (fun l hl => h l (by simp [hl]))
      simp [h1, h2, goodChar]

theorem wordOfFilter_good (f : SearchFilter) (h : wfFilter f = true) :
    goodChars (wordOfFilter f) = true := by
  simp only [wfFilter, Bool.and_eq_true] at h
  obtain ⟨⟨⟨⟨_, hkey⟩, _⟩, _⟩, hval⟩ := h
  have hop : goodChars (filterOpChars f.op) = true := by
    cases f.op <;> decide
  have hv : goodChars (valueChars f.value) = true := by
    cases hfv : f.value with
    | single s =>
      rw [hfv] at hval
      simp only [wfValue, Bool.and_eq_true] at hval
      exact hval.1.1
    | list xs =>
      rw [hfv] at hval
      simp only [wfValue, Bool.and_eq_true] at hval
      show goodChars ('[' :: (intercalChar ',' (xs.map String.data) ++ [']'])) = true
      rw [goodChars_cons, goodChars_append]
      have hmid : goodChars (intercalChar ',' (xs.map String.data)) = true := by
        apply goodChars_intercal
        intro l hl
        rw [List.mem_map] at hl
        obtain ⟨s, hs, rfl⟩ := hl
        have := List.all_eq_true.mp hval.2 s hs
        simp only [Bool.and_eq_true] at this
        exact this.1
      simp only [goodChars_cons, Bool.and_eq_true]
      exact ⟨by decide, hmid, by decide, by decide⟩
  unfold wordOfFilter
  rw [goodChars_append, goodChars_append, goodChars_cons, goodChars_append]
  have hbang : goodChars (if f.negated then ['!'] else []) = true := by
    cases f.negated <;> decide
  simp [hbang, hkey, hop, hv, goodChar]

theorem wordOfFilter_ne_nil (f : SearchFilter) : wordOfFilter f ≠ [] := by
  unfold wordOfFilter
  cases hn : f.negated with
  | true => simp
  | false =>
    cases hk : f.key.data with
    | nil => simp
    | cons c cs => simp

theorem colon_mem_wordOfFilter (f : SearchFilter) : ':' ∈ wordOfFilter f := by
  unfold wordOfFilter
  rw [List.mem_append, List.mem_append]
  exact Or.inr (List.mem_cons_self _ _)

theorem splitFirst_key (rest : List Char) :
    ∀ key, key.contains ':' = false →
      splitFirst ':' (key ++ ':' :: rest) = some (key, rest) := by
  intro key
  induction key with
  | nil =>
    intro _
    show splitFirst ':' (':' :: rest) = some ([], rest)
    rw [splitFirst, if_pos rfl]
  | cons k ks ih =>
    intro h
    rw [List.contains_cons, Bool.or_eq_false_iff, beq_eq_false_iff_ne] at h
    rw [List.cons_append, splitFirst, if_neg (by exact fun hk => h.1 hk.symm), ih h.2]

theorem valueHeadOk_list (fop : FilterOp) (xs : List String) :
    valueHeadOk fop (valueChars (.list xs)) = true := by
  cases fop <;> rfl

theorem parseCmpMarker_inv (fop : FilterOp) (v : List Char)
    (h : valueHeadOk fop v = true) :
    parseCmpMarker (filterOpChars fop ++ v) = (fop, v) := by
  cases fop with
  | eq =>
    cases v with
    | nil => rfl
    | cons c vs =>
      simp only [valueHeadOk, Bool.not_eq_eq_eq_not, Bool.not_true, Bool.or_eq_false_iff,
        beq_eq_false_iff_ne, ne_eq] at h
      show parseCmpMarker (c :: vs) = (.eq, c :: vs)
      rw [parseCmpMarker.eq_def]
      split
      · rename_i heq; exact absurd (List.head_eq_of_cons_eq heq.symm).symm h.1
      · rename_i heq; exact absurd (List.head_eq_of_cons_eq heq.symm).symm h.2
      · rename_i heq; exact absurd (List.head_eq_of_cons_eq heq.symm).symm h.1
      · rename_i heq; exact absurd (List.head_eq_of_cons_eq heq.symm).symm h.2
      · rfl
  | gt =>
    cases v with
    | nil => rfl
    | cons c vs =>
      simp only [valueHeadOk, Bool.not_eq_eq_eq_not, Bool.not_true,
        beq_eq_false_iff_ne, ne_eq] at h
      show parseCmpMarker ('>' :: c :: vs) = (.gt, c :: vs)
      rw [parseCmpMarker.eq_def]
      split
      · rename_i heq
        have := List.head_eq_of_cons_eq (List.tail_eq_of_cons_eq heq.symm)
        exact absurd this.symm h
      · rename_i heq; exact absurd heq (by simp)
      · rename_i heq
        rw [← List.tail_eq_of_cons_eq heq]
      · rename_i heq; exact absurd heq (by simp)
      · rename_i h1 h2 h3 h4; exact (h3 _ rfl).elim
  | gte => rfl
  | lt =>
    cases v with
    | nil => rfl
    | cons c vs =>
      simp only [valueHeadOk, Bool.not_eq_eq_eq_not, Bool.not_true,
        beq_eq_false_iff_ne, ne_eq] at h
      show parseCmpMarker ('<' :: c :: vs) = (.lt, c :: vs)
      rw [parseCmpMarker.eq_def]
      split
      · rename_i heq; exact absurd heq (by simp)
      · rename_i heq
        have := List.head_eq_of_cons_eq (List.tail_eq_of_cons_eq heq.symm)
        exact absurd this.symm h
      · rename_i heq; exact absurd heq (by simp)
      · rename_i heq
        rw [← List.tail_eq_of_cons_eq heq]
      · rename_i h1 h2 h3 h4; exact (h4 _ rfl).elim
  | lte => rfl

theorem splitAllChar_of_not_contains (c : Char) (x : List Char)
    (h : x.contains c = false) : splitAllChar c x = [x] := by
  induction x with
  | nil => rfl
  | cons a as ih =>
    rw [List.contains_cons, Bool.or_eq_false_iff, beq_eq_false_iff_ne] at h
    rw [splitAllChar, if_neg (fun ha => h.1 ha.symm), ih h.2]

theorem splitAllChar_append_sep (c : Char) (r : List Char) :
    ∀ x, x.contains c = false →
      splitAllChar c (x ++ c :: r) = x :: splitAllChar c r := by
  intro x
  induction x with
  | nil =>
    intro _
    show splitAllChar c (c :: r) = [] :: splitAllChar c r
    rw [splitAllChar, if_pos rfl]
  | cons a as ih =>
    intro h
    rw [List.contains_cons, Bool.or_eq_false_iff, beq_eq_false_iff_ne] at h
    rw [List.cons_append, splitAllChar, if_neg (fun ha => h.1 ha.symm), ih h.2]

theorem splitAll_intercal (ls : List (List Char)) (hne : ls ≠ [])
    (h : ∀ l ∈ ls, l.contains ',' = false) :
    splitAllChar ',' (intercalChar ',' ls) = ls := by
  induction ls with
  | nil => exact absurd rfl hne
  | cons x xs ih =>
    cases xs with
    | nil => exact splitAllChar_of_not_contains ',' x (h x (by simp))
    | cons y ys =>
      show splitAllChar ',' (x ++ ',' :: intercalChar ',' (y :: ys)) = x :: y :: ys
      rw [splitAllChar_append_sep ',' _ x (h x (by simp)),
        ih (by simp) (fun l hl => h l (by simp [hl]))]

theorem parseValueChars_inv (fop : FilterOp) (val : FilterValue)
    (h : wfValue fop val = true) : parseValueChars (valueChars val) = val := by
  cases val with
  | single s =>
    simp only [wfValue, Bool.and_eq_true] at h
    show parseValueChars s.data = FilterValue.single s
    cases hd : s.data with
    | nil => show FilterValue.single (String.mk []) = _; rw [← hd]
    | cons c cs =>
      by_cases hc : c = '['
      · subst hc
        have hb := h.2
        rw [hd] at hb
        simp only [notBracketPair] at hb
        rw [parseValueChars.eq_def]
        split
        · rename_i heq
          have ht := List.tail_eq_of_cons_eq heq
          rw [← ht]
          rw [if_neg (by simpa using hb)]
          rw [← hd]
        · rename_i hno
          exact (hno cs rfl).elim
      · rw [parseValueChars.eq_def]
        split
        · rename_i heq
          exact absurd (List.head_eq_of_cons_eq heq.symm).symm hc
        · rw [← hd]
  | list xs =>
    simp only [wfValue, Bool.and_eq_true] at h
    show parseValueChars ('[' :: (intercalChar ',' (xs.map String.data) ++ [']'])) =
      FilterValue.list xs
    rw [parseValueChars.eq_def]
    split
    · rename_i heq
      have ht := List.tail_eq_of_cons_eq heq
      rw [← ht, if_pos (by rw [List.getLast?_concat]), List.dropLast_concat]
      rw [splitAll_intercal (xs.map String.data)
        (by
          intro hmap
          rw [List.map_eq_nil_iff] at hmap
          rw [hmap] at h
          exact absurd h.1 (by decide))
        (by
          intro l hl
          rw [List.mem_map] at hl
          obtain ⟨s, hs, rfl⟩ := hl
          have := List.all_eq_true.mp h.2 s hs
          simp only [Bool.and_eq_true, Bool.not_eq_eq_eq_not, Bool.not_true] at this
          exact this.2)]
      rw [show List.map String.mk (List.map String.data xs) = xs from by
        rw [List.map_map, show (String.mk ∘ String.data) = id from funext fun s => rfl,
          List.map_id]]
    · rename_i hno
      exact (hno _ rfl).elim

theorem parseFilterWord_eq (neg : Bool) (key rest : List Char)
    (hk : key.contains ':' = false) :
    parseFilterWord neg (key ++ ':' :: rest) =
      (if key = [] then none
       else some (.filter ⟨neg, String.mk key, (parseCmpMarker rest).1,
         parseValueChars (parseCmpMarker rest).2⟩)) := by
  unfold parseFilterWord
  rw [splitFirst_key rest key hk]

theorem wordOfFilter_decompose (f : SearchFilter) :
    wordOfFilter f = (if f.negated then ['!'] else []) ++
      (f.key.data ++ ':' :: (filterOpChars f.op ++ valueChars f.value)) := by
  unfold wordOfFilter
  rw [List.append_assoc]

theorem parseWordToken_wordOfFilter (f : SearchFilter) (h : wfFilter f = true) :
    parseWordToken (wordOfFilter f) = some (.filter f) := by
  obtain ⟨fneg, fkey, fop, fval⟩ := f
  simp only [wfFilter, Bool.and_eq_true] at h
  obtain ⟨⟨⟨⟨hne, hgood⟩, hnc⟩, hbang⟩, hval⟩ := h
  have hheadok : valueHeadOk fop (valueChars fval) = true := by
    cases fval with
    | single s =>
      simp only [wfValue, Bool.and_eq_true] at hval
      exact hval.1.2
    | list xs => exact valueHeadOk_list fop xs
  have hAND : ¬((wordOfFilter ⟨fneg, fkey, fop, fval⟩).map Char.toUpper = "AND".data) := by
    intro heq
    have hmem : ':' ∈ (wordOfFilter ⟨fneg, fkey, fop, fval⟩).map Char.toUpper := by
      have := List.mem_map_of_mem Char.toUpper
        (colon_mem_wordOfFilter ⟨fneg, fkey, fop, fval⟩)
      simpa using this
    rw [heq] at hmem
    exact absurd hmem (by decide)
  have hOR : ¬((wordOfFilter ⟨fneg, fkey, fop, fval⟩).map Char.toUpper = "OR".data) := by
    intro heq
    have hmem : ':' ∈ (wordOfFilter ⟨fneg, fkey, fop, fval⟩).map Char.toUpper := by
      have := List.mem_map_of_mem Char.toUpper
        (colon_mem_wordOfFilter ⟨fneg, fkey, fop, fval⟩)
      simpa using this
    rw [heq] at hmem
    exact absurd hmem (by decide)
  unfold parseWordToken
  rw [if_neg hAND, if_neg hOR]
  cases fneg with
  | true =>
    rw [show wordOfFilter ⟨true, fkey, fop, fval⟩ =
        '!' :: (fkey.data ++ ':' :: (filterOpChars fop ++ valueChars fval)) from by
      rw [wordOfFilter_decompose]
      rfl]
    show parseFilterWord true (fkey.data ++ ':' :: (filterOpChars fop ++ valueChars fval)) =
      some (.filter ⟨true, fkey, fop, fval⟩)
    rw [parseFilterWord_eq true fkey.data _ (by simpa using hnc),
      if_neg (by simpa using hne), parseCmpMarker_inv fop (valueChars fval) hheadok]
    show some (QueryToken.filter ⟨true, String.mk fkey.data, fop,
      parseValueChars (valueChars fval)⟩) = _
    rw [parseValueChars_inv fop fval hval]
  | false =>
    have hbang2 : headNotBang fkey.data = true := by simpa using hbang
    obtain ⟨k, ks, hkd⟩ : ∃ k ks, fkey.data = k :: ks := by
      cases hkd : fkey.data with
      | nil => rw [hkd] at hne; exact absurd hne (by decide)
      | cons a b => exact ⟨a, b, rfl⟩
    have hknb : ¬k = '!' := by
      rw [hkd] at hbang2
      simpa [headNotBang] using hbang2
    rw [show wordOfFilter ⟨false, fkey, fop, fval⟩ =
        k :: (ks ++ ':' :: (filterOpChars fop ++ valueChars fval)) from by
      rw [wordOfFilter_decompose]
      show fkey.data ++ ':' :: (filterOpChars fop ++ valueChars fval) = _
      rw [hkd]
      rfl]
    split
    · rename_i w1 heq
      exact absurd (List.head_eq_of_cons_eq heq) hknb
    · show parseFilterWord false ((k :: ks) ++ ':' :: (filterOpChars fop ++ valueChars fval)) =
        some (.filter ⟨false, fkey, fop, fval⟩)
      rw [parseFilterWord_eq false (k :: ks) _ (by rw [← hkd]; simpa using hnc),
        if_neg (by simp), parseCmpMarker_inv fop (valueChars fval) hheadok]
      show some (QueryToken.filter ⟨false, String.mk (k :: ks), fop,
        parseValueChars (valueChars fval)⟩) = _
      rw [parseValueChars_inv fop fval hval, ← hkd]

theorem parseWordToken_boolOp (b : BoolOp) :
    parseWordToken (boolOpChars b) = some (.op b) := by
  cases b <;> rfl

theorem lexFlush_nil : lexFlush [] = [] := rfl

mutual
theorem lexAux_renderTok : ∀ (t : QueryToken) (suffix : List Char), wfTok t = true →
    boundarySuffix suffix = true →
    lexAux [] (renderTok t ++ suffix) = flatTok t ++ lexAux [] suffix
  | .filter f => fun suffix hw hs => by
    show lexAux [] (wordOfFilter f ++ suffix) = .word (wordOfFilter f) :: lexAux [] suffix
    exact lexAux_word _ (wordOfFilter_good f (by simpa [wfTok] using hw))
      (wordOfFilter_ne_nil f) suffix hs
  | .op b => fun suffix _ hs => by
    show lexAux [] (boolOpChars b ++ suffix) = .word (boolOpChars b) :: lexAux [] suffix
    exact lexAux_word _ (by cases b <;> decide) (by cases b <;> simp [boolOpChars]) suffix hs
  | .paren cs => fun suffix hw hs => by
    have ih := lexAux_renderToks cs (')' :: suffix) (by simpa [wfTok] using hw) rfl
    show lexAux [] (('(' :: renderToks cs ++ [')']) ++ suffix) =
      (.lparen :: flatToks cs ++ [.rparen]) ++ lexAux [] suffix
    rw [show (('(' :: renderToks cs ++ [')']) ++ suffix) =
        '(' :: (renderToks cs ++ ')' :: suffix) from by simp]
    rw [lexAux_cons, if_neg (by decide), if_pos rfl, ih]
    rw [show lexAux [] (')' :: suffix) = .rparen :: lexAux [] suffix from by
      rw [lexAux_cons, if_neg (by decide), if_neg (by decide), if_pos rfl, lexFlush_nil]
      rfl]
    simp [lexFlush_nil]
theorem lexAux_renderToks : ∀ (ts : List QueryToken) (suffix : List Char), wfToks ts = true →
    boundarySuffix suffix = true →
    lexAux [] (renderToks ts ++ suffix) = flatToks ts ++ lexAux [] suffix
  | [] => fun suffix _ _ => by
    show lexAux [] suffix = [] ++ lexAux [] suffix
    rw [List.nil_append]
  | [t] => fun suffix hw hs => by
    show lexAux [] (renderTok t ++ suffix) = (flatTok t ++ []) ++ lexAux [] suffix
    rw [List.append_nil]
    exact lexAux_renderTok t suffix (by simp only [wfToks, Bool.and_eq_true] at hw; exact hw.1) hs
  | t :: r :: rs => fun suffix hw hs => by
    simp only [wfToks, Bool.and_eq_true] at hw
    show lexAux [] ((renderTok t ++ ' ' :: renderToks (r :: rs)) ++ suffix) =
      (flatTok t ++ flatToks (r :: rs)) ++ lexAux [] suffix
    rw [show (renderTok t ++ ' ' :: renderToks (r :: rs)) ++ suffix =
        renderTok t ++ ' ' :: (renderToks (r :: rs) ++ suffix) from by simp]
    rw [lexAux_renderTok t (' ' :: (renderToks (r :: rs) ++ suffix)) hw.1 rfl]
    rw [show lexAux [] (' ' :: (renderToks (r :: rs) ++ suffix)) =
        lexAux [] (renderToks (r :: rs) ++ suffix) from by
      rw [lexAux_cons, if_pos rfl, lexFlush_nil]
      rfl]
    rw [lexAux_renderToks (r :: rs) suffix (by
      simp only [wfToks, Bool.and_eq_true]
      exact hw.2) hs]
    rw [List.append_assoc]
end

mutual
theorem parseStack_flatTok : ∀ (t : QueryToken) (rest : List RawTok) (cur : List QueryToken)
    (stack : List (List QueryToken)), wfTok t = true →
    parseStack (flatTok t ++ rest) cur stack = parseStack rest (t :: cur) stack
  | .filter f => fun rest cur stack hw => by
    show parseStack (.word (wordOfFilter f) :: rest) cur stack = _
    simp only [parseStack, parseWordToken_wordOfFilter f (by simpa [wfTok] using hw)]
  | .op b => fun rest cur stack _ => by
    show parseStack (.word (boolOpChars b) :: rest) cur stack = _
    simp only [parseStack, parseWordToken_boolOp b]
  | .paren cs => fun rest cur stack hw => by
    have ih := parseStack_flatToks cs (.rparen :: rest) [] (cur :: stack)
      (by simpa [wfTok] using hw)
    rw [show flatTok (.paren cs) ++ rest = .lparen :: (flatToks cs ++ .rparen :: rest) from by
      simp [flatTok]]
    show parseStack (flatToks cs ++ .rparen :: rest) [] (cur :: stack) = _
    rw [ih]
    show parseStack rest (.paren (List.reverse (List.reverseAux cs [])) :: cur) stack = _
    rw [List.reverseAux_eq, List.append_nil, List.reverse_reverse]
theorem parseStack_flatToks : ∀ (ts : List QueryToken) (rest : List RawTok)
    (cur : List QueryToken) (stack : List (List QueryToken)), wfToks ts = true →
    parseStack (flatToks ts ++ rest) cur stack = parseStack rest (List.reverseAux ts cur) stack
  | [] => fun rest cur stack _ => rfl
  | t :: ts' => fun rest cur stack hw => by
    simp only [wfToks, Bool.and_eq_true] at hw
    rw [show flatToks (t :: ts') ++ rest = flatTok t ++ (flatToks ts' ++ rest) from by
      simp [flatToks]]
    rw [parseStack_flatTok t _ cur stack hw.1]
    exact parseStack_flatToks ts' rest (t :: cur) stack hw.2
end

/-- C5: rendering round-trips: for every already-normalized, well-formed
(renderable) token tree `ts`, re-tokenizing the rendered query text yields a
tree structurally equal to `ts`:
`parse_search_query (query_tokens_to_string ts) = some ts`. -/
theorem render_then_tokenize_identity (ts : List QueryToken)
    (_hclean : listClean ts = true) (hwf : wfToks ts = true) :
    parse_search_query (query_tokens_to_string ts) = some ts := by
  unfold parse_search_query query_tokens_to_string
  show parseStack (lexAux [] (renderToks ts)) [] [] = some ts
  rw [show renderToks ts = renderToks ts ++ [] from (List.append_nil _).symm,
    lexAux_renderToks ts [] hwf rfl]
  rw [show lexAux ([] : List Char) [] = [] from rfl, List.append_nil]
  rw [show flatToks ts = flatToks ts ++ [] from (List.append_nil _).symm,
    parseStack_flatToks ts [] [] [] hwf]
  show some (List.reverse (List.reverseAux ts [])) = some ts
  rw [List.reverseAux_eq, List.append_nil, List.reverse_reverse]

theorem render_then_tokenize_identity_witness :
    listClean [QueryToken.filter ⟨false, "release", .eq, .single "initial"⟩, .op .or,
      .filter ⟨false, "os.name", .eq, .single "android"⟩] = true ∧
    wfToks [QueryToken.filter ⟨false, "release", .eq, .single "initial"⟩, .op .or,
      .filter ⟨false, "os.name", .eq, .single "android"⟩] = true ∧
    parse_search_query (query_tokens_to_string
      [QueryToken.filter ⟨false, "release", .eq, .single "initial"⟩, .op .or,
        .filter ⟨false, "os.name", .eq, .single "android"⟩]) =
      some [QueryToken.filter ⟨false, "release", .eq, .single "initial"⟩, .op .or,
        .filter ⟨false, "os.name", .eq, .single "android"⟩] :=
  ⟨rfl, rfl, render_then_tokenize_identity _ rfl rfl⟩
